import Mathlib

/-!
Verification of `write_sparse_distance_matrix`
(jotok/simple-time-space-clustering, notebook cell 2).

Shallow embedding of the windowed sparse-distance-matrix pass.

Modelling conventions:
* Timestamps are `Int` (e.g. minutes since an epoch); `datetime.strptime`
  is modelled by storing the parse result in the row: `date : Option Int`,
  where `none` means the timestamp string does not match the configured
  format (`strptime` raises `ValueError`).
* Coordinates and distances are `Rat` (embedding the floats of the source).
* The pluggable distance metric (`DistanceMetric.get_metric("haversine")`
  followed by `dist.pairwise`) is a parameter `dist : Coords → Coords → Rat`;
  `dist.pairwise(space_window, [current_coords])` is a column of
  `dist(space_window[i], current_coords)` values, modelled by `pairwiseDist`.
* The CSV writer is modelled by the list of data rows written after the
  header: `Except Unit (List Entry)`; `.error ()` models an uncaught
  exception aborting the pass, `.ok []` models header-only output.
-/

/-- One input row, after field extraction.  `date` is the result of
`datetime.strptime(row['date'], date_format)`: `none` models a timestamp
string that does not match the format (a `ValueError` escaping `strptime`). -/
structure Row where
  date : Option Int
  lat : Rat
  lon : Rat
deriving DecidableEq

instance : Inhabited Row := ⟨⟨none, 0, 0⟩⟩

/-- Coordinate pairs `[lat, long]` fed to the metric. -/
abbrev Coords := Rat × Rat

/-- One data row written by `wr.writerow({"x": _, "y": _, "distance": _})`. -/
structure Entry where
  x : Nat
  y : Nat
  distance : Rat
deriving DecidableEq

/-- The mutable state of the closure `go`: the two index counters and the
two deques (deques are embedded as lists, head = left end). -/
structure GoState where
  left_index : Nat
  right_index : Nat
  time_window : List Int
  space_window : List Coords
deriving DecidableEq

/-- Python helper `find(coll, pred)`: index of the first element
satisfying `pred`; Python raises `ValueError` when there is none,
modelled by `none`. -/
def find {α : Type} : List α → (α → Bool) → Option Nat
  | [], _ => none
  | x :: xs, pred => if pred x then some 0 else (find xs pred).map (· + 1)

/-- Python helper `dropn(deq, n)`: drop the first `n` elements from the
left end. -/
def dropn {α : Type} (deq : List α) (n : Nat) : List α := deq.drop n

/-- The parsed timestamp of a row (`0` as a dummy for unparseable rows,
which abort the pass before their timestamp is ever used). -/
def rowTs (r : Row) : Int := r.date.getD 0

/-- The `[lat, long]` list built from a row (`current_coords`). -/
def rowCoords (r : Row) : Coords := (r.lat, r.lon)

/-- Models `dist.pairwise(space_window, [current_coords])` flattened by
`np.nditer`: the column of metric values against each window element,
in window order. -/
def pairwiseDist (dist : Coords → Coords → Rat) (space_window : List Coords)
    (current_coords : Coords) : List Rat :=
  space_window.map (fun c => dist c current_coords)

/-- The emission loop `for i, d in enumerate(np.nditer(distances)): ...`:
for each window offset `i` with `d < space_threshold`, write the two rows
`(left_index + i, right_index, d)` and `(right_index, left_index + i, d)`. -/
def emitEntries (space_threshold : Rat) (left_index right_index : Nat)
    (distances : List Rat) : List Entry :=
  distances.enum.flatMap fun p =>
    if p.2 < space_threshold then
      [⟨left_index + p.1, right_index, p.2⟩, ⟨right_index, left_index + p.1, p.2⟩]
    else []

/-- One iteration of the `for row in rr` loop in `go`: parse the timestamp
(uncaught failure aborts), evict stale window elements (the `try/except
ValueError` around `find`/`dropn`), emit qualifying pairs against the
surviving window, then append the new observation and advance `right_index`. -/
def goStep (time_threshold : Int) (space_threshold : Rat)
    (dist : Coords → Coords → Rat) (st : GoState) (row : Row) :
    Except Unit (GoState × List Entry) :=
  match row.date with
  | none => .error ()
  | some current_ts =>
    let evicted : Nat × List Int × List Coords :=
      match find st.time_window (fun ts => decide (current_ts - ts < time_threshold)) with
      | some number_to_drop =>
          (st.left_index + number_to_drop,
           dropn st.time_window number_to_drop,
           dropn st.space_window number_to_drop)
      | none =>
          (st.left_index + st.time_window.length, [], [])
    let left_index := evicted.1
    let time_window := evicted.2.1
    let space_window := evicted.2.2
    let current_coords : Coords := (row.lat, row.lon)
    let es :=
      if space_window.length > 0 then
        emitEntries space_threshold left_index st.right_index
          (pairwiseDist dist space_window current_coords)
      else []
    .ok ({ left_index := left_index,
           right_index := st.right_index + 1,
           time_window := time_window ++ [current_ts],
           space_window := space_window ++ [current_coords] }, es)

/-- The loop body of `go(rr, wr)`, threaded over the remaining rows;
returns the final state and the concatenation of all written rows. -/
def go (time_threshold : Int) (space_threshold : Rat)
    (dist : Coords → Coords → Rat) :
    GoState → List Row → Except Unit (GoState × List Entry)
  | st, [] => .ok (st, [])
  | st, row :: rest =>
    match goStep time_threshold space_threshold dist st row with
    | .error e => .error e
    | .ok (st', es) =>
      match go time_threshold space_threshold dist st' rest with
      | .error e => .error e
      | .ok (stF, esF) => .ok (stF, es ++ esF)

/-- Top-level `write_sparse_distance_matrix`: header then `go` from the
initial state (both counters `0`, both deques empty); the result is the
list of data rows after the header. -/
def write_sparse_distance_matrix (time_threshold : Int) (space_threshold : Rat)
    (dist : Coords → Coords → Rat) (rows : List Row) :
    Except Unit (List Entry) :=
  (go time_threshold space_threshold dist ⟨0, 0, [], []⟩ rows).map (·.2)

/-! ## Observables of the input list -/

/-- The parsed timestamp of the observation with global index `i`. -/
def tsAt (rows : List Row) (i : Nat) : Int := (rows.map rowTs).getD i 0

/-- The coordinates of the observation with global index `i`. -/
def coordsAt (rows : List Row) (i : Nat) : Coords := (rows.map rowCoords).getD i (0, 0)

/-- The input is sorted by non-decreasing timestamp (the precondition of
`write_sparse_distance_matrix`). -/
def sortedByTs (rows : List Row) : Prop := List.Pairwise (· ≤ ·) (rows.map rowTs)

/-- Every row's timestamp matches the configured format. -/
def allParsed (rows : List Row) : Prop := ∀ r ∈ rows, r.date.isSome

/-- The state of `go` after consuming the rows of `done`, when the live
window holds exactly the observations with global indices
`left, left+1, ..., done.length - 1`. -/
def windowState (done : List Row) (left : Nat) : GoState :=
  { left_index := left
    right_index := done.length
    time_window := (done.map rowTs).drop left
    space_window := (done.map rowCoords).drop left }

/-! ## Reference output, written from the specification

`stepEntriesSpec` follows the spec's words for completeness: at step `j`,
every earlier observation `i < j` whose time difference and space distance
are within the configured bounds contributes one symmetric pair of
entries, in window order. -/

/-- The qualifying condition from the spec, with the code's fixed bound
choice: both proximity tests are strict. -/
def qualifiesSpec (time_threshold : Int) (space_threshold : Rat)
    (dist : Coords → Coords → Rat) (rows : List Row) (i j : Nat) : Prop :=
  tsAt rows j - tsAt rows i < time_threshold ∧
    dist (coordsAt rows i) (coordsAt rows j) < space_threshold

instance (T : Int) (S : Rat) (dist : Coords → Coords → Rat) (rows : List Row)
    (i j : Nat) : Decidable (qualifiesSpec T S dist rows i j) :=
  inferInstanceAs (Decidable (And _ _))

/-- The symmetric pair of entries the spec prescribes for a qualifying
pair `(i, j)` with `i < j`. -/
def pairEntries (dist : Coords → Coords → Rat) (rows : List Row) (i j : Nat) :
    List Entry :=
  [⟨i, j, dist (coordsAt rows i) (coordsAt rows j)⟩,
   ⟨j, i, dist (coordsAt rows i) (coordsAt rows j)⟩]

/-- The entries the spec prescribes for step `j` of the pass. -/
def stepEntriesSpec (T : Int) (S : Rat) (dist : Coords → Coords → Rat)
    (rows : List Row) (j : Nat) : List Entry :=
  (List.range j).flatMap fun i =>
    if qualifiesSpec T S dist rows i j then pairEntries dist rows i j else []

/-- The whole reference output the spec prescribes for the pass. -/
def referenceEntries (T : Int) (S : Rat) (dist : Coords → Coords → Rat)
    (rows : List Row) : List Entry :=
  (List.range rows.length).flatMap (stepEntriesSpec T S dist rows)

instance (rows : List Row) : Decidable (sortedByTs rows) := by
  unfold sortedByTs
  infer_instance

instance (rows : List Row) : Decidable (allParsed rows) := by
  unfold allParsed
  exact List.decidableBAll _ _

/-! ## Concrete pluggable metrics used on test inputs -/

/-- A constant metric (ignores the coordinates). -/
def constDist : Coords → Coords → Rat := fun _ _ => 1

/-- A projection metric: the latitude of the (earlier) window element. -/
def latDist : Coords → Coords → Rat := fun a _ => a.1

/-- A projection metric: the longitude of the current observation. -/
def lonDist : Coords → Coords → Rat := fun _ b => b.2

/-- Invariant carried along the pass under sorted input: every observation
already evicted from the window stays out of time range of every current
or later observation. -/
def staleInv (T : Int) (rows : List Row) (k left : Nat) : Prop :=
  ∀ m, m < left → ∀ j, k ≤ j → j < rows.length → T ≤ tsAt rows j - tsAt rows m

/-! ## Properties of the helper `find` -/

theorem find_some_lt {α : Type} {l : List α} {p : α → Bool} {n : Nat}
    (h : find l p = some n) : n < l.length := by
  induction l generalizing n with
  | nil => simp [find] at h
  | cons x xs ih =>
    by_cases hx : p x
    · simp [find, hx] at h
      subst h
      simp
    · simp [find, hx] at h
      obtain ⟨m, hm, rfl⟩ := h
      have := ih hm
      simp
      omega

theorem find_some_pred {α : Type} {l : List α} {p : α → Bool} {n : Nat}
    (h : find l p = some n) (d : α) : p (l.getD n d) = true := by
  induction l generalizing n with
  | nil => simp [find] at h
  | cons x xs ih =>
    by_cases hx : p x
    · simp [find, hx] at h
      subst h
      simpa using hx
    · simp [find, hx] at h
      obtain ⟨m, hm, rfl⟩ := h
      simpa using ih hm

theorem find_some_before {α : Type} {l : List α} {p : α → Bool} {n : Nat}
    (h : find l p = some n) {m : Nat} (hm : m < n) (d : α) :
    p (l.getD m d) = false := by
  induction l generalizing n m with
  | nil => simp [find] at h
  | cons x xs ih =>
    by_cases hx : p x
    · simp [find, hx] at h
      omega
    · simp [find, hx] at h
      obtain ⟨n', hn', rfl⟩ := h
      match m with
      | 0 => simpa using hx
      | m' + 1 =>
        have : m' < n' := by omega
        simpa using ih hn' this

theorem find_none {α : Type} {l : List α} {p : α → Bool}
    (h : find l p = none) : ∀ x ∈ l, p x = false := by
  induction l with
  | nil => simp
  | cons x xs ih =>
    by_cases hx : p x
    · simp [find, hx] at h
    · simp [find, hx] at h
      intro y hy
      rcases List.mem_cons.mp hy with rfl | hy
      · simpa using hx
      · exact ih h y hy

/-! ## Indexing helper lemmas -/

theorem slice_getD {α : Type} {l : List α} {k left p : Nat}
    (hpk : left + p < k) (d : α) :
    ((l.take k).drop left).getD p d = l.getD (left + p) d := by
  rw [List.getD_eq_getElem?_getD, List.getD_eq_getElem?_getD,
    List.getElem?_drop, List.getElem?_take, if_pos hpk]

theorem rowTs_getD (rows : List Row) {k : Nat} (hk : k < rows.length) :
    rowTs (rows.getD k default) = tsAt rows k := by
  simp [tsAt, List.getD_eq_getElem?_getD, List.getElem?_eq_getElem hk]

theorem rowCoords_getD (rows : List Row) {k : Nat} (hk : k < rows.length) :
    rowCoords (rows.getD k default) = coordsAt rows k := by
  simp [coordsAt, List.getD_eq_getElem?_getD, List.getElem?_eq_getElem hk]

theorem date_getD (rows : List Row) (hp : allParsed rows) {k : Nat}
    (hk : k < rows.length) :
    (rows.getD k default).date = some (tsAt rows k) := by
  have h1 : rows.getD k default = rows[k] := by
    simp [List.getD_eq_getElem?_getD, List.getElem?_eq_getElem hk]
  have h2 : (rows[k]).date.isSome := hp _ (List.getElem_mem hk)
  obtain ⟨c, hc⟩ := Option.isSome_iff_exists.mp h2
  have h3 : tsAt rows k = rowTs rows[k] := by
    rw [← rowTs_getD rows hk, h1]
  rw [h1, h3, hc]
  simp [rowTs, hc]

theorem tsAt_mono {rows : List Row} (hs : sortedByTs rows) {i j : Nat}
    (hij : i ≤ j) (hj : j < rows.length) : tsAt rows i ≤ tsAt rows j := by
  rcases Nat.lt_or_ge i j with h | h
  · have hi : i < rows.length := Nat.lt_trans h hj
    have hmono := (List.pairwise_iff_getElem.mp hs) i j (by simpa) (by simpa) h
    simpa [tsAt, List.getD_eq_getElem?_getD, List.getElem?_eq_getElem,
      hi, hj] using hmono
  · have heq : i = j := Nat.le_antisymm hij h
    subst heq
    exact le_refl _

/-! ## Composition and small-step lemmas for `go` -/

theorem go_append (T : Int) (S : Rat) (dist : Coords → Coords → Rat)
    (l1 l2 : List Row) (st : GoState) :
    go T S dist st (l1 ++ l2) =
      match go T S dist st l1 with
      | .error e => .error e
      | .ok (st', es) =>
        match go T S dist st' l2 with
        | .error e => .error e
        | .ok (stF, esF) => .ok (stF, es ++ esF) := by
  induction l1 generalizing st with
  | nil =>
    simp [go]
    rcases go T S dist st l2 with e | ⟨stF, esF⟩ <;> simp
  | cons row rest ih =>
    show go T S dist st (row :: (rest ++ l2)) = _
    rw [go]
    rcases hstep : goStep T S dist st row with e | ⟨st', es⟩
    · simp [go, hstep]
    · simp only
      rw [ih st']
      rw [go, hstep]
      simp only
      rcases go T S dist st' rest with e | ⟨st2, es2⟩
      · simp
      · simp only
        rcases go T S dist st2 l2 with e | ⟨st3, es3⟩
        · simp
        · simp [List.append_assoc]

theorem mem_emitEntries {S : Rat} {L R : Nat} {ds : List Rat} {e : Entry}
    (h : e ∈ emitEntries S L R ds) :
    ∃ i, i < ds.length ∧ ds.getD i 0 = e.distance ∧ e.distance < S ∧
      (e = ⟨L + i, R, e.distance⟩ ∨ e = ⟨R, L + i, e.distance⟩) := by
  rw [emitEntries, List.mem_flatMap] at h
  obtain ⟨p, hp, he⟩ := h
  have hget : ds[p.1]? = some p.2 := List.mem_enum_iff_getElem?.mp hp
  obtain ⟨hlen, hval⟩ := List.getElem?_eq_some_iff.mp hget
  have hgetD : ds.getD p.1 0 = p.2 := by
    simp [List.getD_eq_getElem?_getD, hget]
  by_cases hd : p.2 < S
  · rw [if_pos hd] at he
    simp only [List.mem_cons, List.mem_singleton] at he
    rcases he with rfl | he
    · exact ⟨p.1, hlen, hgetD, hd, Or.inl rfl⟩
    · rcases he with rfl | he
      · exact ⟨p.1, hlen, hgetD, hd, Or.inr rfl⟩
      · simp at he
  · rw [if_neg hd] at he
    simp at he

theorem goStep_content (T : Int) (S : Rat) (dist : Coords → Coords → Rat)
    (done : List Row) (left : Nat) (row : Row) {c : Int}
    (hdate : row.date = some c) (hleft : left ≤ done.length) :
    ∃ left' es, left ≤ left' ∧ left' ≤ done.length ∧
      goStep T S dist (windowState done left) row
        = .ok (windowState (done ++ [row]) left', es) ∧
      ∀ e ∈ es, min e.x e.y < done.length ∧ max e.x e.y = done.length := by
  have hrowTs : rowTs row = c := by simp [rowTs, hdate]
  have hlenTs : (done.map rowTs).length = done.length := by simp
  have hlenCo : (done.map rowCoords).length = done.length := by simp
  rcases hfind : find ((done.map rowTs).drop left)
      (fun ts => decide (c - ts < T)) with _ | n
  · -- all stale (or empty window): clear both deques
    refine ⟨done.length, [], hleft, le_refl _, ?_, by simp⟩
    have e1 : left + ((done.map rowTs).drop left).length = done.length := by
      simp
      omega
    have e2 : ((done ++ [row]).map rowTs).drop done.length = [c] := by
      rw [List.map_append, List.drop_append_of_le_length (by simp)]
      simp [hrowTs]
    have e3 : ((done ++ [row]).map rowCoords).drop done.length
        = [(row.lat, row.lon)] := by
      rw [List.map_append, List.drop_append_of_le_length (by simp)]
      simp [rowCoords]
    simp only [goStep, windowState, hdate, hfind]
    simp [windowState, GoState.mk.injEq, e1, e2, e3]
    exact ⟨by omega, hrowTs.symm, rfl⟩
  · -- drop the first n elements of both deques
    have hn : n < ((done.map rowTs).drop left).length := find_some_lt hfind
    have hn' : left + n < done.length := by
      simp [List.length_drop, hlenTs] at hn
      omega
    refine ⟨left + n,
      emitEntries S (left + n) done.length
        (pairwiseDist dist ((done.map rowCoords).drop (left + n)) (row.lat, row.lon)),
      Nat.le_add_right _ _, le_of_lt hn', ?_, ?_⟩
    · have e2 : ((done ++ [row]).map rowTs).drop (left + n)
          = (done.map rowTs).drop (left + n) ++ [c] := by
        rw [List.map_append, List.drop_append_of_le_length (by simp; omega)]
        simp [hrowTs]
      have e3 : ((done ++ [row]).map rowCoords).drop (left + n)
          = (done.map rowCoords).drop (left + n) ++ [(row.lat, row.lon)] := by
        rw [List.map_append, List.drop_append_of_le_length (by simp; omega)]
        simp [rowCoords]
      simp only [goStep, windowState, hdate, hfind]
      rw [dropn, dropn, List.drop_drop, List.drop_drop]
      rw [if_pos (by simp [List.length_drop]; omega)]
      simp [windowState, GoState.mk.injEq, e2, e3]
      constructor
      · rw [List.drop_append_of_le_length (by simp; omega), hrowTs]
      · rw [List.drop_append_of_le_length (by simp; omega)]
        rfl
    · intro e he
      rcases mem_emitEntries he with ⟨i, hi, _, _, hshape⟩
      have hib : left + n + i < done.length := by
        simp [pairwiseDist, List.length_drop, hlenCo] at hi
        omega
      rcases hshape with h | h <;> rw [h] <;> simp <;> omega

theorem go_content (T : Int) (S : Rat) (dist : Coords → Coords → Rat) :
    ∀ (rs done : List Row) (left : Nat), left ≤ done.length →
      ∀ (stF : GoState) (out : List Entry),
        go T S dist (windowState done left) rs = .ok (stF, out) →
        ∃ leftF, left ≤ leftF ∧ leftF ≤ (done ++ rs).length ∧
          stF = windowState (done ++ rs) leftF ∧
          ∀ e ∈ out, done.length ≤ max e.x e.y ∧
            max e.x e.y < (done ++ rs).length ∧ min e.x e.y < max e.x e.y := by
  intro rs
  induction rs with
  | nil =>
    intro done left hleft stF out hgo
    rw [go] at hgo
    simp only [Except.ok.injEq, Prod.mk.injEq] at hgo
    obtain ⟨hst, hout⟩ := hgo
    exact ⟨left, le_refl _, by simpa using hleft, by simp [hst.symm],
      by simp [hout.symm]⟩
  | cons row rest ih =>
    intro done left hleft stF out hgo
    rw [go] at hgo
    rcases hdate : row.date with _ | c
    · rw [goStep, hdate] at hgo
      simp at hgo
    rcases hstep : goStep T S dist (windowState done left) row with e | ⟨st', es⟩
    · rw [hstep] at hgo
      simp at hgo
    rw [hstep] at hgo
    simp only at hgo
    rcases hrest : go T S dist st' rest with e | ⟨st2, es2⟩
    · rw [hrest] at hgo
      simp at hgo
    rw [hrest] at hgo
    simp only [Except.ok.injEq, Prod.mk.injEq] at hgo
    obtain ⟨hst, hout⟩ := hgo
    obtain ⟨left', esV, hl1, hl2, hstepEq, hes⟩ :=
      goStep_content T S dist done left row hdate hleft
    rw [hstepEq] at hstep
    simp only [Except.ok.injEq, Prod.mk.injEq] at hstep
    obtain ⟨hst', hes'⟩ := hstep
    rw [← hst'] at hrest
    obtain ⟨leftF, hf1, hf2, hf3, hf4⟩ :=
      ih (done ++ [row]) left' (by simpa using Nat.le_succ_of_le hl2) st2 es2 hrest
    have happ : (done ++ [row]) ++ rest = done ++ row :: rest := by simp
    refine ⟨leftF, Nat.le_trans hl1 hf1, by simpa [happ] using hf2,
      by rw [hst.symm, hf3, happ], ?_⟩
    intro e he
    rw [← hout] at he
    rcases List.mem_append.mp he with he | he
    · rw [← hes'] at he
      obtain ⟨hb1, hb2⟩ := hes e he
      have hlen : done.length < (done ++ row :: rest).length := by simp
      exact ⟨Nat.le_of_eq hb2.symm, by omega, by omega⟩
    · obtain ⟨hb1, hb2, hb3⟩ := hf4 e he
      rw [happ] at hb2
      refine ⟨?_, hb2, hb3⟩
      simp at hb1
      omega

theorem go_run_content (T : Int) (S : Rat) (dist : Coords → Coords → Rat)
    (rows : List Row) (stF : GoState) (out : List Entry)
    (hgo : go T S dist ⟨0, 0, [], []⟩ rows = .ok (stF, out)) :
    ∃ leftF, leftF ≤ rows.length ∧ stF = windowState rows leftF ∧
      ∀ e ∈ out, max e.x e.y < rows.length ∧ min e.x e.y < max e.x e.y := by
  have hinit : (⟨0, 0, [], []⟩ : GoState) = windowState [] 0 := rfl
  rw [hinit] at hgo
  obtain ⟨leftF, _, h2, h3, h4⟩ :=
    go_content T S dist rows [] 0 (by simp) stF out hgo
  exact ⟨leftF, by simpa using h2, by simpa using h3,
    fun e he => ⟨by simpa using (h4 e he).2.1, (h4 e he).2.2⟩⟩

/-! ## Symmetric emission -/

theorem emitEntries_swap {S : Rat} {L R : Nat} {ds : List Rat} {e : Entry}
    (h : e ∈ emitEntries S L R ds) :
    (⟨e.y, e.x, e.distance⟩ : Entry) ∈ emitEntries S L R ds := by
  rw [emitEntries, List.mem_flatMap] at h ⊢
  obtain ⟨p, hp, he⟩ := h
  refine ⟨p, hp, ?_⟩
  by_cases hd : p.2 < S
  · rw [if_pos hd] at he ⊢
    simp only [List.mem_cons, List.mem_singleton] at he ⊢
    rcases he with rfl | he
    · simp
    · rcases he with rfl | he
      · simp
      · simp at he
  · rw [if_neg hd] at he
    simp at he

theorem goStep_swap {T : Int} {S : Rat} {dist : Coords → Coords → Rat}
    {st : GoState} {row : Row} {st' : GoState} {es : List Entry}
    (h : goStep T S dist st row = .ok (st', es)) :
    ∀ e ∈ es, (⟨e.y, e.x, e.distance⟩ : Entry) ∈ es := by
  rcases hdate : row.date with _ | c
  · rw [goStep, hdate] at h
    simp at h
  · rw [goStep, hdate] at h
    simp only [Except.ok.injEq, Prod.mk.injEq] at h
    obtain ⟨-, hes⟩ := h
    subst hes
    intro e he
    by_cases hc : (0 : Nat) <
        (match find st.time_window fun ts => decide (c - ts < T) with
          | some number_to_drop =>
            (st.left_index + number_to_drop, dropn st.time_window number_to_drop,
              dropn st.space_window number_to_drop)
          | none => (st.left_index + st.time_window.length, [], [])).2.2.length
    · rw [if_pos (by simpa using hc)] at he ⊢
      exact emitEntries_swap he
    · rw [if_neg (by simpa using hc)] at he
      simp at he

theorem go_swap (T : Int) (S : Rat) (dist : Coords → Coords → Rat) :
    ∀ (rs : List Row) (st stF : GoState) (out : List Entry),
      go T S dist st rs = .ok (stF, out) →
      ∀ e ∈ out, (⟨e.y, e.x, e.distance⟩ : Entry) ∈ out := by
  intro rs
  induction rs with
  | nil =>
    intro st stF out hgo
    rw [go] at hgo
    simp only [Except.ok.injEq, Prod.mk.injEq] at hgo
    rw [← hgo.2]
    simp
  | cons row rest ih =>
    intro st stF out hgo
    rw [go] at hgo
    rcases hstep : goStep T S dist st row with e | ⟨st', es⟩
    · rw [hstep] at hgo
      simp at hgo
    rw [hstep] at hgo
    simp only at hgo
    rcases hrest : go T S dist st' rest with e | ⟨st2, es2⟩
    · rw [hrest] at hgo
      simp at hgo
    rw [hrest] at hgo
    simp only [Except.ok.injEq, Prod.mk.injEq] at hgo
    obtain ⟨-, hout⟩ := hgo
    rw [← hout]
    intro e he
    rcases List.mem_append.mp he with he | he
    · exact List.mem_append_left _ (goStep_swap hstep e he)
    · exact List.mem_append_right _ (ih st' st2 es2 hrest e he)

/-! ## Re-indexing the emission loop -/

theorem enumFrom_flatMap_eq {α β : Type} (G : Nat → α → List β) (B : Nat → List β) :
    ∀ (ds : List α) (j : Nat),
      (∀ p (hp : p < ds.length), G (j + p) ds[p] = B (j + p)) →
      ((ds.enumFrom j).flatMap fun q => G q.1 q.2)
        = (List.range' j ds.length).flatMap B := by
  intro ds
  induction ds with
  | nil => intro j _; simp
  | cons a ds ih =>
    intro j hG
    have h0 : G j a = B j := by simpa using hG 0 (by simp)
    simp only [List.enumFrom_cons, List.flatMap_cons, List.length_cons,
      List.range'_succ]
    rw [h0, ih (j + 1)]
    intro p hp
    have hstep := hG (p + 1) (by simpa using Nat.succ_lt_succ hp)
    have harith : j + (p + 1) = j + 1 + p := by omega
    rw [harith] at hstep
    simpa using hstep

/-! ## Sorted-input characterisation of the pass -/

theorem take_succ_getD {α : Type} (l : List α) {k : Nat} (hk : k < l.length)
    (d : α) : l.take (k + 1) = l.take k ++ [l.getD k d] := by
  rw [List.take_succ, List.getElem?_eq_getElem hk]
  simp [List.getD_eq_getElem?_getD, List.getElem?_eq_getElem hk]

theorem emit_eq_stepEntriesSpec (T : Int) (S : Rat) (dist : Coords → Coords → Rat)
    (rows : List Row) {k left' : Nat} (hk : k < rows.length) (hl : left' < k)
    (hfailAll : ∀ i, i < left' → ¬(tsAt rows k - tsAt rows i < T))
    (hok : ∀ i, left' ≤ i → i < k → tsAt rows k - tsAt rows i < T) :
    emitEntries S left' k
      (pairwiseDist dist (((rows.map rowCoords).take k).drop left') (coordsAt rows k))
      = stepEntriesSpec T S dist rows k := by
  set sw := ((rows.map rowCoords).take k).drop left' with hswdef
  set ds := pairwiseDist dist sw (coordsAt rows k) with hdsdef
  have hlsw : sw.length = k - left' := by
    simp [hswdef, List.length_drop, List.length_take]
    omega
  have hlds : ds.length = k - left' := by
    simp [hdsdef, pairwiseDist, hlsw]
  have hvalds : ∀ p (hp : p < ds.length),
      ds[p] = dist (coordsAt rows (left' + p)) (coordsAt rows k) := by
    intro p hp
    have hp' : p < sw.length := by rw [hlsw]; rw [hlds] at hp; exact hp
    have h1 : ds[p] = dist sw[p] (coordsAt rows k) := by
      simp [hdsdef, pairwiseDist]
    have h2 : sw[p] = coordsAt rows (left' + p) := by
      have hg : sw[p] = sw.getD p (0, 0) := by
        simp [List.getD_eq_getElem?_getD, List.getElem?_eq_getElem hp']
      rw [hg, hswdef, slice_getD (by rw [hlsw] at hp'; omega)]
      rfl
    rw [h1, h2]
  have hmain : (ds.enumFrom 0).flatMap
      (fun q => if q.2 < S then
        ([⟨left' + q.1, k, q.2⟩, ⟨k, left' + q.1, q.2⟩] : List Entry) else [])
      = (List.range' 0 ds.length).flatMap
          (fun i => if qualifiesSpec T S dist rows (left' + i) k then
            pairEntries dist rows (left' + i) k else []) := by
    apply enumFrom_flatMap_eq
      (fun i d => if d < S then
        ([⟨left' + i, k, d⟩, ⟨k, left' + i, d⟩] : List Entry) else [])
      (fun i => if qualifiesSpec T S dist rows (left' + i) k then
        pairEntries dist rows (left' + i) k else [])
    intro p hp
    rw [Nat.zero_add]
    have hd := hvalds p hp
    have hik : left' + p < k := by rw [hlds] at hp; omega
    have hq : (ds[p] < S) ↔ qualifiesSpec T S dist rows (left' + p) k := by
      rw [hd, qualifiesSpec]
      constructor
      · intro h2
        exact ⟨hok _ (Nat.le_add_right _ _) hik, h2⟩
      · rintro ⟨-, h2⟩
        exact h2
    simp only [pairEntries, ← hd]
    exact if_congr hq rfl rfl
  have hshift : (List.range' left' (k - left')).flatMap
      (fun i => if qualifiesSpec T S dist rows i k then
        pairEntries dist rows i k else [])
      = (List.range' 0 ds.length).flatMap
          (fun i => if qualifiesSpec T S dist rows (left' + i) k then
            pairEntries dist rows (left' + i) k else []) := by
    rw [hlds, List.range'_eq_map_range, List.flatMap_map, ← List.range_eq_range']
  have hsplit : stepEntriesSpec T S dist rows k
      = (List.range' 0 left').flatMap
          (fun i => if qualifiesSpec T S dist rows i k then
            pairEntries dist rows i k else [])
        ++ (List.range' left' (k - left')).flatMap
          (fun i => if qualifiesSpec T S dist rows i k then
            pairEntries dist rows i k else []) := by
    have hranges : List.range k = List.range' 0 left' ++ List.range' left' (k - left') := by
      have h1 := List.range'_append_1 0 left' (k - left')
      rw [Nat.zero_add] at h1
      rw [show k - left' + left' = k from by omega] at h1
      rw [List.range_eq_range', ← h1]
    rw [stepEntriesSpec, hranges, List.flatMap_append]
  have hnil : (List.range' 0 left').flatMap
      (fun i => if qualifiesSpec T S dist rows i k then
        pairEntries dist rows i k else []) = [] := by
    rw [List.flatMap_eq_nil_iff]
    intro i hi
    have hi' : i < left' := by
      have := List.mem_range'_1.mp hi
      omega
    rw [if_neg]
    rintro ⟨h1, -⟩
    exact hfailAll i hi' h1
  rw [emitEntries]
  rw [show ds.enum = ds.enumFrom 0 from rfl]
  rw [hmain, ← hshift, hsplit, hnil, List.nil_append]

theorem goStep_sorted (T : Int) (S : Rat) (dist : Coords → Coords → Rat)
    (rows : List Row) (hs : sortedByTs rows) (hp : allParsed rows)
    {k left : Nat} (hk : k < rows.length) (hleft : left ≤ k)
    (hstale : staleInv T rows k left) :
    ∃ left', left ≤ left' ∧ left' ≤ k + 1 ∧ staleInv T rows (k + 1) left' ∧
      goStep T S dist (windowState (rows.take k) left) (rows.getD k default)
        = .ok (windowState (rows.take (k + 1)) left',
               stepEntriesSpec T S dist rows k) := by
  have hdate : (rows.getD k default).date = some (tsAt rows k) := date_getD rows hp hk
  have hrowCo : rowCoords (rows.getD k default) = coordsAt rows k := rowCoords_getD rows hk
  have hkT : k < (rows.map rowTs).length := by simpa using hk
  have hkC : k < (rows.map rowCoords).length := by simpa using hk
  have hklen : (rows.take k).length = k := by
    simp [List.length_take]
    omega
  have hlenT : (((rows.map rowTs).take k).drop left).length = k - left := by
    simp [List.length_drop, List.length_take]
    omega
  have hvalT : ∀ p, left + p < k →
      (((rows.map rowTs).take k).drop left).getD p 0 = tsAt rows (left + p) := by
    intro p hpk
    rw [slice_getD hpk]
    rfl
  have htakeT : (rows.map rowTs).take (k + 1)
      = (rows.map rowTs).take k ++ [tsAt rows k] := take_succ_getD _ hkT 0
  have htakeC : (rows.map rowCoords).take (k + 1)
      = (rows.map rowCoords).take k ++ [coordsAt rows k] := take_succ_getD _ hkC (0, 0)
  rcases hfind : find (((rows.map rowTs).take k).drop left)
      (fun ts => decide (tsAt rows k - ts < T)) with _ | n
  · -- `find` raised ValueError: the whole window is stale (or empty)
    have hfail : ∀ i, left ≤ i → i < k → T ≤ tsAt rows k - tsAt rows i := by
      intro i hi1 hi2
      have hlt : i - left < (((rows.map rowTs).take k).drop left).length := by
        rw [hlenT]; omega
      have hgd : (((rows.map rowTs).take k).drop left).getD (i - left) 0
          = (((rows.map rowTs).take k).drop left)[i - left] := by
        simp [List.getD_eq_getElem?_getD, List.getElem?_eq_getElem hlt]
      have hmem := List.getElem_mem hlt
      have hne := find_none hfind _ hmem
      rw [← hgd] at hne
      have harith : left + (i - left) = i := by omega
      rw [hvalT (i - left) (by omega), harith] at hne
      simp at hne
      omega
    have hfailAll : ∀ i, i < k → ¬(tsAt rows k - tsAt rows i < T) := by
      intro i hik
      rcases Nat.lt_or_ge i left with hil | hil
      · have := hstale i hil k (le_refl k) hk
        omega
      · have := hfail i hil hik
        omega
    have hstepE : stepEntriesSpec T S dist rows k = [] := by
      rw [stepEntriesSpec, List.flatMap_eq_nil_iff]
      intro i hi
      rw [if_neg]
      rintro ⟨h1, -⟩
      exact hfailAll i (List.mem_range.mp hi) h1
    have e2 : ((rows.map rowTs).take (k + 1)).drop k = [tsAt rows k] := by
      rw [htakeT, List.drop_append_of_le_length (by simp [List.length_take]; omega)]
      rw [List.drop_eq_nil_of_le (by simp [List.length_take])]
      simp
    have e3 : ((rows.map rowCoords).take (k + 1)).drop k = [coordsAt rows k] := by
      rw [htakeC, List.drop_append_of_le_length (by simp [List.length_take]; omega)]
      rw [List.drop_eq_nil_of_le (by simp [List.length_take])]
      simp
    refine ⟨k, hleft, Nat.le_succ k, ?_, ?_⟩
    · intro m hm j hj1 hj2
      have hts : tsAt rows k ≤ tsAt rows j := tsAt_mono hs (by omega) hj2
      rcases Nat.lt_or_ge m left with hml | hml
      · have := hstale m hml j (by omega) hj2
        omega
      · have := hfail m hml hm
        omega
    · rw [hstepE]
      simp only [goStep, windowState, hdate, List.map_take]
      rw [hfind]
      simp [windowState, GoState.mk.injEq, List.map_take, e2, e3,
        List.length_take, hrowCo]
      refine ⟨by omega, by omega, ?_⟩
      rw [← hrowCo]
      simp [rowCoords, List.getD_eq_getElem?_getD]
  · -- `find` located the first surviving element at offset `n`
    have hn : n < (((rows.map rowTs).take k).drop left).length := find_some_lt hfind
    have hn' : left + n < k := by rw [hlenT] at hn; omega
    have hpredn : tsAt rows k - tsAt rows (left + n) < T := by
      have hpr := find_some_pred hfind 0
      rw [hvalT n hn'] at hpr
      simpa using hpr
    have hdrop : ∀ p, p < n → T ≤ tsAt rows k - tsAt rows (left + p) := by
      intro p hpn
      have hpr := find_some_before hfind hpn 0
      rw [hvalT p (by omega)] at hpr
      simp at hpr
      omega
    have hfailAll : ∀ i, i < left + n → ¬(tsAt rows k - tsAt rows i < T) := by
      intro i hi
      rcases Nat.lt_or_ge i left with hil | hil
      · have := hstale i hil k (le_refl k) hk
        omega
      · have hd := hdrop (i - left) (by omega)
        have harith : left + (i - left) = i := by omega
        rw [harith] at hd
        omega
    have hok : ∀ i, left + n ≤ i → i < k → tsAt rows k - tsAt rows i < T := by
      intro i hi1 hi2
      have hmono : tsAt rows (left + n) ≤ tsAt rows i :=
        tsAt_mono hs hi1 (by omega)
      omega
    have hstale' : staleInv T rows (k + 1) (left + n) := by
      intro m hm j hj1 hj2
      have hts : tsAt rows k ≤ tsAt rows j := tsAt_mono hs (by omega) hj2
      rcases Nat.lt_or_ge m left with hml | hml
      · have := hstale m hml j (by omega) hj2
        omega
      · have hd := hdrop (m - left) (by omega)
        have harith : left + (m - left) = m := by omega
        rw [harith] at hd
        omega
    have hes := emit_eq_stepEntriesSpec T S dist rows hk hn' hfailAll hok
    have e2 : ((rows.map rowTs).take (k + 1)).drop (left + n)
        = ((rows.map rowTs).take k).drop (left + n) ++ [tsAt rows k] := by
      rw [htakeT, List.drop_append_of_le_length (by simp [List.length_take]; omega)]
    have e3 : ((rows.map rowCoords).take (k + 1)).drop (left + n)
        = ((rows.map rowCoords).take k).drop (left + n) ++ [coordsAt rows k] := by
      rw [htakeC, List.drop_append_of_le_length (by simp [List.length_take]; omega)]
    refine ⟨left + n, Nat.le_add_right _ _, by omega, hstale', ?_⟩
    simp only [goStep, windowState, hdate, List.map_take, hfind]
    simp only [dropn, List.drop_drop]
    rw [if_pos (by simp [List.length_drop, List.length_take]; omega)]
    rw [show (((rows.getD k default).lat, (rows.getD k default).lon) : Coords)
      = coordsAt rows k from hrowCo]
    rw [hklen, hes]
    simp [windowState, GoState.mk.injEq, List.map_take, e2, e3,
      List.length_take, hrowCo]
    omega

theorem go_sorted (T : Int) (S : Rat) (dist : Coords → Coords → Rat)
    (rows : List Row) (hs : sortedByTs rows) (hp : allParsed rows) :
    ∀ (rs : List Row) (k left : Nat), rows.drop k = rs → k ≤ rows.length →
      left ≤ k → staleInv T rows k left →
      ∃ leftF, go T S dist (windowState (rows.take k) left) rs
        = .ok (windowState rows leftF,
               (List.range' k (rows.length - k)).flatMap
                 (stepEntriesSpec T S dist rows)) := by
  intro rs
  induction rs with
  | nil =>
    intro k left hdrop hk hleft hstale
    have hkeq : k = rows.length := by
      have := List.drop_eq_nil_iff.mp hdrop
      omega
    refine ⟨left, ?_⟩
    rw [go, hkeq]
    simp [List.take_length, Nat.sub_self]
  | cons row rs' ih =>
    intro k left hdrop hk hleft hstale
    have hklt : k < rows.length := by
      by_contra hge
      rw [List.drop_eq_nil_of_le (by omega)] at hdrop
      simp at hdrop
    have hrow : row = rows.getD k default := by
      have h0 : (rows.drop k)[0]? = some row := by rw [hdrop]; simp
      rw [List.getElem?_drop, Nat.add_zero] at h0
      simp [List.getD_eq_getElem?_getD, h0]
    have hdrop' : rows.drop (k + 1) = rs' := by
      have hdd : rows.drop (k + 1) = (rows.drop k).drop 1 := by
        rw [List.drop_drop]
      rw [hdd, hdrop]
      rfl
    obtain ⟨left', hl1, hl2, hstale', hstep⟩ :=
      goStep_sorted T S dist rows hs hp hklt hleft hstale
    obtain ⟨leftF, hrest⟩ := ih (k + 1) left' hdrop' (by omega) hl2 hstale'
    refine ⟨leftF, ?_⟩
    rw [← hrow] at hstep
    rw [go, hstep]
    simp only
    rw [hrest]
    simp only
    have hcons : List.range' k (rows.length - k)
        = k :: List.range' (k + 1) (rows.length - (k + 1)) := by
      rw [show rows.length - k = (rows.length - (k + 1)) + 1 from by omega,
        List.range'_succ]
    rw [hcons, List.flatMap_cons]

/-- Under the documented precondition (input sorted by non-decreasing
timestamp) and with every timestamp parseable, the pass emits exactly the
reference output prescribed by the spec (with the code's strict bounds). -/
theorem write_eq_reference (T : Int) (S : Rat) (dist : Coords → Coords → Rat)
    (rows : List Row) (hs : sortedByTs rows) (hp : allParsed rows) :
    write_sparse_distance_matrix T S dist rows
      = .ok (referenceEntries T S dist rows) := by
  obtain ⟨leftF, hgo⟩ := go_sorted T S dist rows hs hp rows 0 0 rfl
    (Nat.zero_le _) (le_refl 0) (by intro m hm; omega)
  have hinit : windowState (rows.take 0) 0 = (⟨0, 0, [], []⟩ : GoState) := by
    simp [windowState]
  rw [write_sparse_distance_matrix, ← hinit, hgo]
  simp [referenceEntries, List.range_eq_range', Except.map]

/-! ## Decomposition of the reference output -/

theorem mem_stepEntriesSpec {T : Int} {S : Rat} {dist : Coords → Coords → Rat}
    {rows : List Row} {j : Nat} {e : Entry}
    (h : e ∈ stepEntriesSpec T S dist rows j) :
    ∃ i, i < j ∧ qualifiesSpec T S dist rows i j ∧
      e.distance = dist (coordsAt rows i) (coordsAt rows j) ∧
      (e = ⟨i, j, e.distance⟩ ∨ e = ⟨j, i, e.distance⟩) := by
  rw [stepEntriesSpec, List.mem_flatMap] at h
  obtain ⟨i, hi, he⟩ := h
  refine ⟨i, List.mem_range.mp hi, ?_⟩
  by_cases hq : qualifiesSpec T S dist rows i j
  · rw [if_pos hq] at he
    simp only [pairEntries, List.mem_cons, List.mem_singleton] at he
    rcases he with rfl | he
    · exact ⟨hq, rfl, Or.inl rfl⟩
    · rcases he with rfl | he
      · exact ⟨hq, rfl, Or.inr rfl⟩
      · simp at he
  · rw [if_neg hq] at he
    simp at he

theorem mem_referenceEntries {T : Int} {S : Rat} {dist : Coords → Coords → Rat}
    {rows : List Row} {e : Entry}
    (h : e ∈ referenceEntries T S dist rows) :
    ∃ i j, i < j ∧ j < rows.length ∧
      ((e.x = i ∧ e.y = j) ∨ (e.x = j ∧ e.y = i)) ∧
      tsAt rows j - tsAt rows i < T ∧
      e.distance = dist (coordsAt rows i) (coordsAt rows j) ∧
      e.distance < S := by
  rw [referenceEntries, List.mem_flatMap] at h
  obtain ⟨j, hj, he⟩ := h
  obtain ⟨i, hij, hq, hd, hshape⟩ := mem_stepEntriesSpec he
  obtain ⟨hq1, hq2⟩ := hq
  refine ⟨i, j, hij, List.mem_range.mp hj, ?_, hq1, hd, by rw [hd]; exact hq2⟩
  rcases hshape with hsh | hsh <;> rw [hsh] <;> simp

/-! ## Extracting the single contributing step -/

theorem flatMap_single {β : Type} (i : Nat) (L : List β) :
    ∀ (j : Nat) (f : Nat → List β), i < j →
      (∀ m, m < j → m ≠ i → f m = []) → f i = L →
      (List.range j).flatMap f = L := by
  intro j
  induction j with
  | zero => intro f h; omega
  | succ j ih =>
    intro f hij hz hfi
    rw [List.range_succ, List.flatMap_append, List.flatMap_cons,
      List.flatMap_nil, List.append_nil]
    rcases Nat.lt_or_ge i j with hlt | hge
    · rw [ih f hlt (fun m hm => hz m (by omega)) hfi]
      rw [hz j (by omega) (by omega)]
      simp
    · have hieq : i = j := by omega
      subst hieq
      rw [hfi]
      have : (List.range i).flatMap f = [] := by
        rw [List.flatMap_eq_nil_iff]
        intro m hm
        exact hz m (by have := List.mem_range.mp hm; omega)
          (by have := List.mem_range.mp hm; omega)
      rw [this, List.nil_append]

theorem filter_pair_fst (i j : Nat) (d : Rat) (hne : j ≠ i) :
    ([⟨i, j, d⟩, ⟨j, i, d⟩] : List Entry).filter
      (fun e => e.x == i && e.y == j) = [⟨i, j, d⟩] := by
  simp [List.filter_cons, hne]

theorem filter_pair_snd (i j : Nat) (d : Rat) (hne : i ≠ j) :
    ([⟨i, j, d⟩, ⟨j, i, d⟩] : List Entry).filter
      (fun e => e.x == j && e.y == i) = [⟨j, i, d⟩] := by
  simp [List.filter_cons, hne]

theorem filter_pair_nil_fst (m j i : Nat) (d : Rat) (h1 : m ≠ i) (h2 : j ≠ i) :
    ([⟨m, j, d⟩, ⟨j, m, d⟩] : List Entry).filter
      (fun e => e.x == i && e.y == j) = [] := by
  simp [List.filter_cons, h1, h2]

theorem filter_pair_nil_snd (m j i : Nat) (d : Rat) (h1 : m ≠ j) (h2 : m ≠ i) :
    ([⟨m, j, d⟩, ⟨j, m, d⟩] : List Entry).filter
      (fun e => e.x == j && e.y == i) = [] := by
  simp [List.filter_cons, h1, h2]

theorem referenceEntries_filter_pair (T : Int) (S : Rat)
    (dist : Coords → Coords → Rat) (rows : List Row) {i j : Nat} (hij : i < j)
    (hj : j < rows.length) (hq : qualifiesSpec T S dist rows i j) :
    (referenceEntries T S dist rows).filter (fun e => e.x == i && e.y == j)
      = [⟨i, j, dist (coordsAt rows i) (coordsAt rows j)⟩] ∧
    (referenceEntries T S dist rows).filter (fun e => e.x == j && e.y == i)
      = [⟨j, i, dist (coordsAt rows i) (coordsAt rows j)⟩] := by
  have hstep : ∀ (p : Entry → Bool) (L : List Entry),
      ((stepEntriesSpec T S dist rows j).filter p = L) →
      (∀ j', j' < rows.length → j' ≠ j →
        (stepEntriesSpec T S dist rows j').filter p = []) →
      (referenceEntries T S dist rows).filter p = L := by
    intro p L hL hz
    rw [referenceEntries, List.filter_flatMap]
    exact flatMap_single j L rows.length
      (fun m => (stepEntriesSpec T S dist rows m).filter p) hj
      (fun m hm hmj => hz m hm hmj) hL
  have hother : ∀ (p : Entry → Bool),
      (∀ i' j', i' < j' → ¬(p ⟨i', j', dist (coordsAt rows i') (coordsAt rows j')⟩
          ∨ p ⟨j', i', dist (coordsAt rows i') (coordsAt rows j')⟩) ∨ (i' = i ∧ j' = j)) →
      ∀ j', j' < rows.length → j' ≠ j →
        (stepEntriesSpec T S dist rows j').filter p = [] := by
    intro p hp j' hj' hjj
    rw [List.filter_eq_nil_iff]
    intro e he hpe
    obtain ⟨i', hi', -, hd, hshape⟩ := mem_stepEntriesSpec he
    rcases hp i' j' hi' with hnone | ⟨-, rfl⟩
    · rcases hshape with hsh | hsh <;> rw [hsh, hd] at hpe
      · exact hnone (Or.inl hpe)
      · exact hnone (Or.inr hpe)
    · exact hjj rfl
  constructor
  · apply hstep
    · rw [stepEntriesSpec, List.filter_flatMap]
      apply flatMap_single i _ j
        (fun m => ((if qualifiesSpec T S dist rows m j then
          pairEntries dist rows m j else []).filter
            (fun e => e.x == i && e.y == j))) hij
      · intro m hm hmi
        by_cases hqm : qualifiesSpec T S dist rows m j
        · rw [if_pos hqm]
          exact filter_pair_nil_fst m j i _ hmi (by omega)
        · rw [if_neg hqm]
          simp
      · rw [if_pos hq]
        exact filter_pair_fst i j _ (by omega)
    · apply hother
      intro i' j' hij'
      by_cases hmatch : i' = i ∧ j' = j
      · exact Or.inr hmatch
      · refine Or.inl ?_
        rintro (hpe | hpe) <;> simp at hpe <;> omega
  · apply hstep
    · rw [stepEntriesSpec, List.filter_flatMap]
      apply flatMap_single i _ j
        (fun m => ((if qualifiesSpec T S dist rows m j then
          pairEntries dist rows m j else []).filter
            (fun e => e.x == j && e.y == i))) hij
      · intro m hm hmi
        by_cases hqm : qualifiesSpec T S dist rows m j
        · rw [if_pos hqm]
          exact filter_pair_nil_snd m j i _ (by omega) hmi
        · rw [if_neg hqm]
          simp
      · rw [if_pos hq]
        exact filter_pair_snd i j _ (by omega)
    · apply hother
      intro i' j' hij'
      by_cases hmatch : i' = i ∧ j' = j
      · exact Or.inr hmatch
      · refine Or.inl ?_
        rintro (hpe | hpe) <;> simp at hpe <;> omega

theorem goStep_left_mono {T : Int} {S : Rat} {dist : Coords → Coords → Rat}
    {st : GoState} {row : Row} {st' : GoState} {es : List Entry}
    (h : goStep T S dist st row = .ok (st', es)) :
    st.left_index ≤ st'.left_index := by
  rcases hdate : row.date with _ | c
  · rw [goStep, hdate] at h
    simp at h
  · simp only [goStep, hdate] at h
    rcases hfind : find st.time_window (fun ts => decide (c - ts < T)) with _ | n <;>
      simp only [hfind] at h <;>
      simp only [Except.ok.injEq, Prod.mk.injEq] at h <;>
      rw [← h.1] <;>
      simp

/-! ## Claim theorems -/

/-- C1.  Completeness: on input sorted by non-decreasing timestamp, every
pair `(i, j)` with `i < j` whose time difference and space distance pass
the configured (strict) thresholds produces exactly one symmetric pair of
output entries — the filter of the output on each orientation of `(i, j)`
is exactly the one expected entry, so no qualifying pair is missed and
none is emitted twice. -/
theorem write_completeness (T : Int) (S : Rat) (dist : Coords → Coords → Rat)
    (rows : List Row) (out : List Entry) (i j : Nat)
    (hs : sortedByTs rows) (hp : allParsed rows)
    (hij : i < j) (hj : j < rows.length)
    (ht : tsAt rows j - tsAt rows i < T)
    (hd : dist (coordsAt rows i) (coordsAt rows j) < S)
    (hout : write_sparse_distance_matrix T S dist rows = .ok out) :
    out.filter (fun e => e.x == i && e.y == j)
      = [⟨i, j, dist (coordsAt rows i) (coordsAt rows j)⟩] ∧
    out.filter (fun e => e.x == j && e.y == i)
      = [⟨j, i, dist (coordsAt rows i) (coordsAt rows j)⟩] := by
  rw [write_eq_reference T S dist rows hs hp] at hout
  have hout' : out = referenceEntries T S dist rows := by
    injection hout with h
    exact h.symm
  rw [hout']
  exact referenceEntries_filter_pair T S dist rows hij hj ⟨ht, hd⟩

/-- C3.  Threshold correctness (no false positives): on sorted input every
emitted entry belongs to a pair `(i, j)`, `i < j`, whose time difference
passes the (strict) time bound and whose space distance passes the
(strict) space bound; in particular no entry is ever emitted for a pair
whose time difference exceeds the time threshold. -/
theorem write_no_false_positives (T : Int) (S : Rat)
    (dist : Coords → Coords → Rat) (rows : List Row) (out : List Entry)
    (hs : sortedByTs rows) (hp : allParsed rows)
    (hout : write_sparse_distance_matrix T S dist rows = .ok out) :
    ∀ e ∈ out, ∃ i j, i < j ∧ j < rows.length ∧
      ((e.x = i ∧ e.y = j) ∨ (e.x = j ∧ e.y = i)) ∧
      tsAt rows j - tsAt rows i < T ∧
      e.distance = dist (coordsAt rows i) (coordsAt rows j) ∧
      e.distance < S := by
  rw [write_eq_reference T S dist rows hs hp] at hout
  have hout' : out = referenceEntries T S dist rows := by
    injection hout with h
    exact h.symm
  rw [hout']
  intro e he
  exact mem_referenceEntries he

/-- C2 (amended).  The boundary policy of the code is an open (strict)
upper bound for both proximity tests: a pair whose time difference is at
least `time_threshold` (in particular, exactly equal to it) or whose space
distance is at least `space_threshold` (in particular, exactly equal to
it) never produces an entry. -/
theorem write_strict_boundary (T : Int) (S : Rat)
    (dist : Coords → Coords → Rat) (rows : List Row) (out : List Entry)
    (i j : Nat) (hs : sortedByTs rows) (hp : allParsed rows)
    (hij : i < j) (hj : j < rows.length)
    (hbound : T ≤ tsAt rows j - tsAt rows i ∨
      S ≤ dist (coordsAt rows i) (coordsAt rows j))
    (hout : write_sparse_distance_matrix T S dist rows = .ok out) :
    ∀ e ∈ out, ¬((e.x = i ∧ e.y = j) ∨ (e.x = j ∧ e.y = i)) := by
  rw [write_eq_reference T S dist rows hs hp] at hout
  have hout' : out = referenceEntries T S dist rows := by
    injection hout with h
    exact h.symm
  subst hout'
  intro e he hpat
  obtain ⟨i', j', hij', hj', hpat', ht', hd', hS'⟩ := mem_referenceEntries he
  have hii : i' = i ∧ j' = j := by
    rcases hpat with ⟨hx, hy⟩ | ⟨hx, hy⟩ <;>
      rcases hpat' with ⟨hx', hy'⟩ | ⟨hx', hy'⟩ <;> omega
  obtain ⟨rfl, rfl⟩ := hii
  rcases hbound with hb | hb
  · omega
  · rw [hd'] at hS'
    exact absurd hS' (not_lt.mpr hb)

/-- C4.  Symmetry: every entry `(x, y, d)` written by the pass is
accompanied by the entry `(y, x, d)` in the output (no sortedness or
parse assumption needed). -/
theorem write_symmetry (T : Int) (S : Rat) (dist : Coords → Coords → Rat)
    (rows : List Row) (out : List Entry)
    (hout : write_sparse_distance_matrix T S dist rows = .ok out) :
    ∀ e ∈ out, (⟨e.y, e.x, e.distance⟩ : Entry) ∈ out := by
  rw [write_sparse_distance_matrix] at hout
  rcases hgo : go T S dist ⟨0, 0, [], []⟩ rows with er | ⟨stF, out'⟩
  · rw [hgo] at hout
    simp [Except.map] at hout
  · rw [hgo] at hout
    simp only [Except.map] at hout
    injection hout with h
    rw [← h]
    exact go_swap T S dist rows _ stF out' hgo

/-- C5.  Index consistency: every emitted entry satisfies
`x < N`, `y < N` (`N` the number of consumed observations) and `x ≠ y`
(no self-pair is ever emitted). -/
theorem write_index_consistency (T : Int) (S : Rat)
    (dist : Coords → Coords → Rat) (rows : List Row) (out : List Entry)
    (hout : write_sparse_distance_matrix T S dist rows = .ok out) :
    ∀ e ∈ out, e.x < rows.length ∧ e.y < rows.length ∧ e.x ≠ e.y := by
  rw [write_sparse_distance_matrix] at hout
  rcases hgo : go T S dist ⟨0, 0, [], []⟩ rows with er | ⟨stF, out'⟩
  · rw [hgo] at hout
    simp [Except.map] at hout
  · rw [hgo] at hout
    simp only [Except.map] at hout
    injection hout with h
    rw [← h]
    intro e he
    obtain ⟨leftF, -, -, hbound⟩ := go_run_content T S dist rows stF out' hgo
    obtain ⟨h1, h2⟩ := hbound e he
    refine ⟨lt_of_le_of_lt (Nat.le_max_left _ _) h1,
      lt_of_le_of_lt (Nat.le_max_right _ _) h1, ?_⟩
    intro hxy
    rw [hxy, Nat.min_self, Nat.max_self] at h2
    exact Nat.lt_irrefl _ h2

/-- C2 (counterexample to the claim as stated).  The code's boundary
policy is strict, not closed: with `time_threshold = 60`, an element whose
age relative to the current observation is exactly `60` is evicted, so the
pair produces no entries even though its space distance (1) is far below
the space threshold (10); and with `space_threshold = 10`, a pair at
space distance exactly `10` (and time difference 0) produces no entries. -/
theorem write_boundary_cex :
    (write_sparse_distance_matrix 60 10 constDist
        [⟨some 0, 1, 1⟩, ⟨some 60, 1, 1⟩] = .ok [] ∧
      tsAt [⟨some 0, 1, 1⟩, ⟨some 60, 1, 1⟩] 1
        - tsAt [⟨some 0, 1, 1⟩, ⟨some 60, 1, 1⟩] 0 = 60 ∧
      constDist (coordsAt [⟨some 0, 1, 1⟩, ⟨some 60, 1, 1⟩] 0)
        (coordsAt [⟨some 0, 1, 1⟩, ⟨some 60, 1, 1⟩] 1) = 1) ∧
    (write_sparse_distance_matrix 60 10 latDist
        [⟨some 0, 10, 0⟩, ⟨some 0, 10, 0⟩] = .ok [] ∧
      tsAt [⟨some 0, 10, 0⟩, ⟨some 0, 10, 0⟩] 1
        - tsAt [⟨some 0, 10, 0⟩, ⟨some 0, 10, 0⟩] 0 = 0 ∧
      latDist (coordsAt [⟨some 0, 10, 0⟩, ⟨some 0, 10, 0⟩] 0)
        (coordsAt [⟨some 0, 10, 0⟩, ⟨some 0, 10, 0⟩] 1) = 10) :=
  ⟨⟨rfl, rfl, rfl⟩, ⟨rfl, rfl, rfl⟩⟩

/-- C6.  Window-state invariant: after consuming any number of
observations, `left_index + length time_window = right_index`,
`right_index` counts the consumed observations, and `left_index` never
decreases from one step to the next. -/
theorem window_invariant (T : Int) (S : Rat) (dist : Coords → Coords → Rat)
    (rows : List Row) (k : Nat) (st1 st2 : GoState) (out1 out2 : List Entry)
    (h1 : go T S dist ⟨0, 0, [], []⟩ (rows.take k) = .ok (st1, out1))
    (h2 : go T S dist ⟨0, 0, [], []⟩ (rows.take (k + 1)) = .ok (st2, out2)) :
    st1.left_index + st1.time_window.length = st1.right_index ∧
    st1.right_index = (rows.take k).length ∧
    st2.left_index + st2.time_window.length = st2.right_index ∧
    st1.left_index ≤ st2.left_index := by
  obtain ⟨l1, hl1, hs1, -⟩ := go_run_content T S dist (rows.take k) st1 out1 h1
  obtain ⟨l2, hl2, hs2, -⟩ := go_run_content T S dist (rows.take (k + 1)) st2 out2 h2
  refine ⟨?_, ?_, ?_, ?_⟩
  · rw [hs1]
    simp only [windowState, List.length_drop, List.length_map]
    omega
  · rw [hs1]
    simp [windowState]
  · rw [hs2]
    simp only [windowState, List.length_drop, List.length_map]
    omega
  · rcases Nat.lt_or_ge k rows.length with hk | hk
    · have htake : rows.take (k + 1) = rows.take k ++ [rows.getD k default] :=
        take_succ_getD rows hk default
      rw [htake, go_append, h1] at h2
      simp only at h2
      rcases hstep : goStep T S dist st1 (rows.getD k default) with er | ⟨st', es⟩
      · rw [go, hstep] at h2
        simp at h2
      · rw [go, hstep] at h2
        simp only at h2
        rw [go] at h2
        simp only [Except.ok.injEq, Prod.mk.injEq] at h2
        have hst : st' = st2 := h2.1
        rw [← hst]
        exact goStep_left_mono hstep
    · have htake : rows.take (k + 1) = rows.take k := by
        rw [List.take_of_length_le (by omega), List.take_of_length_le (by omega)]
      rw [htake, h1] at h2
      simp only [Except.ok.injEq, Prod.mk.injEq] at h2
      rw [← h2.1]

/-- C7.  Empty-window guard: the Distance Evaluator yields the empty
sequence on an empty window, the pass on empty input is header-only
(no data rows), and the pass on a single parseable row is header-only
(there is no prior observation to pair with). -/
theorem empty_window_guard (T : Int) (S : Rat) (dist : Coords → Coords → Rat)
    (cur : Coords) (r : Row) (hr : r.date.isSome) :
    pairwiseDist dist [] cur = [] ∧
    write_sparse_distance_matrix T S dist [] = .ok [] ∧
    write_sparse_distance_matrix T S dist [r] = .ok [] := by
  refine ⟨rfl, rfl, ?_⟩
  obtain ⟨c, hc⟩ := Option.isSome_iff_exists.mp hr
  simp [write_sparse_distance_matrix, go, goStep, hc, find, Except.map]

theorem go_parse_error (T : Int) (S : Rat) (dist : Coords → Coords → Rat) :
    ∀ (good : List Row) (bad : Row) (rest : List Row) (st : GoState),
      (∀ r ∈ good, r.date.isSome) → bad.date = none →
      go T S dist st (good ++ bad :: rest) = .error () := by
  intro good
  induction good with
  | nil =>
    intro bad rest st _ hbad
    rw [List.nil_append, go]
    simp [goStep, hbad]
  | cons g gs ih =>
    intro bad rest st hgood hbad
    obtain ⟨c, hc⟩ := Option.isSome_iff_exists.mp (hgood g (by simp))
    rw [List.cons_append, go]
    rcases hstep : goStep T S dist st g with er | ⟨st', es⟩
    · exfalso
      simp only [goStep, hc] at hstep
      simp at hstep
    · simp only
      rw [ih bad rest st' (fun r hr => hgood r (by simp [hr])) hbad]

/-- C8.  A row whose timestamp does not match the configured format makes
the whole pass fail: the parse happens before the `try` block, so the
resulting error is not caught by the eviction's `ValueError` handler and
aborts `write_sparse_distance_matrix`. -/
theorem write_parse_error_fatal (T : Int) (S : Rat)
    (dist : Coords → Coords → Rat) (good : List Row) (bad : Row)
    (rest : List Row) (hgood : ∀ r ∈ good, r.date.isSome)
    (hbad : bad.date = none) :
    write_sparse_distance_matrix T S dist (good ++ bad :: rest)
      = .error () := by
  rw [write_sparse_distance_matrix,
    go_parse_error T S dist good bad rest _ hgood hbad]
  rfl

/-- C9 (amended).  The pass performs no metric-domain validation: as long
as every timestamp parses, the pass always succeeds, whatever the
coordinate values are — out-of-range coordinates are passed to the metric
and used like any others, never rejected. -/
theorem write_never_rejects_coords (T : Int) (S : Rat)
    (dist : Coords → Coords → Rat) (rows : List Row)
    (hp : allParsed rows) :
    ∃ out, write_sparse_distance_matrix T S dist rows = .ok out := by
  suffices h : ∀ (rs : List Row) (st : GoState), (∀ r ∈ rs, r.date.isSome) →
      ∃ stF out, go T S dist st rs = .ok (stF, out) by
    obtain ⟨stF, out, hgo⟩ := h rows ⟨0, 0, [], []⟩ hp
    refine ⟨out, ?_⟩
    rw [write_sparse_distance_matrix, hgo]
    rfl
  intro rs
  induction rs with
  | nil =>
    intro st _
    exact ⟨st, [], by rw [go]⟩
  | cons row rest ih =>
    intro st hparse
    obtain ⟨c, hc⟩ := Option.isSome_iff_exists.mp (hparse row (by simp))
    have hstep : ∃ st' es, goStep T S dist st row = .ok (st', es) := by
      simp only [goStep, hc]
      exact ⟨_, _, rfl⟩
    obtain ⟨st', es, hstep⟩ := hstep
    obtain ⟨stF, out, hrest⟩ := ih st' (fun r hr => hparse r (by simp [hr]))
    refine ⟨stF, es ++ out, ?_⟩
    rw [go, hstep]
    simp only
    rw [hrest]

/-- C9 (counterexample to the claim as stated).  A record with latitude
`200`, far outside the valid domain `[-90, 90]` of a geographic metric,
is not rejected: the pass succeeds and the out-of-range record's
distances are computed and emitted like any other record's. -/
theorem metric_domain_cex :
    write_sparse_distance_matrix 60 10 lonDist
        [⟨some 0, 200, 0⟩, ⟨some 0, 200, 0⟩]
      = .ok [⟨0, 1, 0⟩, ⟨1, 0, 0⟩] ∧
    (90 : Rat) < 200 := by
  constructor
  · rfl
  · norm_num

/-- C10.  Lockstep invariant: after consuming any number of observations
the timestamp deque and the coordinate deque have the same length and are
aligned slices of the consumed input starting at `left_index`, so the
`i`-th computed distance belongs to the observation with global index
`left_index + i`. -/
theorem lockstep_invariant (T : Int) (S : Rat) (dist : Coords → Coords → Rat)
    (rows : List Row) (k : Nat) (st : GoState) (out : List Entry)
    (h : go T S dist ⟨0, 0, [], []⟩ (rows.take k) = .ok (st, out)) :
    st.time_window.length = st.space_window.length ∧
    st.time_window = ((rows.take k).map rowTs).drop st.left_index ∧
    st.space_window = ((rows.take k).map rowCoords).drop st.left_index := by
  obtain ⟨leftF, -, hs1, -⟩ := go_run_content T S dist (rows.take k) st out h
  rw [hs1]
  simp [windowState]

/-! ## Witnesses: the claim theorems applied at concrete inputs -/

theorem write_completeness_witness :
    ([⟨0, 1, 1⟩, ⟨1, 0, 1⟩] : List Entry).filter
        (fun e => e.x == 0 && e.y == 1) = [⟨0, 1, 1⟩] ∧
    ([⟨0, 1, 1⟩, ⟨1, 0, 1⟩] : List Entry).filter
        (fun e => e.x == 1 && e.y == 0) = [⟨1, 0, 1⟩] :=
  write_completeness 60 5 constDist [⟨some 0, 0, 0⟩, ⟨some 10, 0, 1⟩]
    [⟨0, 1, 1⟩, ⟨1, 0, 1⟩] 0 1 (by decide) (by decide) (by decide) (by decide)
    (by decide) (by decide) rfl

theorem write_strict_boundary_witness :
    ¬(((⟨0, 1, 1⟩ : Entry).x = 0 ∧ (⟨0, 1, 1⟩ : Entry).y = 2) ∨
      ((⟨0, 1, 1⟩ : Entry).x = 2 ∧ (⟨0, 1, 1⟩ : Entry).y = 0)) :=
  write_strict_boundary 60 10 constDist
    [⟨some 0, 1, 1⟩, ⟨some 30, 1, 1⟩, ⟨some 60, 1, 1⟩]
    [⟨0, 1, 1⟩, ⟨1, 0, 1⟩, ⟨1, 2, 1⟩, ⟨2, 1, 1⟩] 0 2
    (by decide) (by decide) (by decide) (by decide)
    (Or.inl (by decide)) rfl ⟨0, 1, 1⟩ (by simp)

theorem write_no_false_positives_witness :
    ∃ i j, i < j ∧
      j < ([⟨some 0, 0, 0⟩, ⟨some 10, 0, 1⟩] : List Row).length ∧
      (((⟨0, 1, 1⟩ : Entry).x = i ∧ (⟨0, 1, 1⟩ : Entry).y = j) ∨
        ((⟨0, 1, 1⟩ : Entry).x = j ∧ (⟨0, 1, 1⟩ : Entry).y = i)) ∧
      tsAt [⟨some 0, 0, 0⟩, ⟨some 10, 0, 1⟩] j
        - tsAt [⟨some 0, 0, 0⟩, ⟨some 10, 0, 1⟩] i < 60 ∧
      (⟨0, 1, 1⟩ : Entry).distance
        = constDist (coordsAt [⟨some 0, 0, 0⟩, ⟨some 10, 0, 1⟩] i)
          (coordsAt [⟨some 0, 0, 0⟩, ⟨some 10, 0, 1⟩] j) ∧
      (⟨0, 1, 1⟩ : Entry).distance < 5 :=
  write_no_false_positives 60 5 constDist [⟨some 0, 0, 0⟩, ⟨some 10, 0, 1⟩]
    [⟨0, 1, 1⟩, ⟨1, 0, 1⟩] (by decide) (by decide) rfl ⟨0, 1, 1⟩ (by simp)

theorem write_symmetry_witness :
    (⟨1, 0, 1⟩ : Entry) ∈ ([⟨0, 1, 1⟩, ⟨1, 0, 1⟩] : List Entry) :=
  write_symmetry 60 5 constDist [⟨some 0, 0, 0⟩, ⟨some 10, 0, 1⟩]
    [⟨0, 1, 1⟩, ⟨1, 0, 1⟩] rfl ⟨0, 1, 1⟩ (by simp)

theorem write_index_consistency_witness :
    (⟨0, 1, 1⟩ : Entry).x < ([⟨some 0, 0, 0⟩, ⟨some 10, 0, 1⟩] : List Row).length ∧
    (⟨0, 1, 1⟩ : Entry).y < ([⟨some 0, 0, 0⟩, ⟨some 10, 0, 1⟩] : List Row).length ∧
    (⟨0, 1, 1⟩ : Entry).x ≠ (⟨0, 1, 1⟩ : Entry).y :=
  write_index_consistency 60 5 constDist [⟨some 0, 0, 0⟩, ⟨some 10, 0, 1⟩]
    [⟨0, 1, 1⟩, ⟨1, 0, 1⟩] rfl ⟨0, 1, 1⟩ (by simp)

theorem window_invariant_witness :
    (0 + ([(0 : Int)] : List Int).length = 1) ∧
    (1 = (([⟨some 0, 0, 0⟩, ⟨some 10, 0, 1⟩] : List Row).take 1).length) ∧
    (0 + ([0, 10] : List Int).length = 2) ∧ (0 : Nat) ≤ 0 :=
  window_invariant 60 5 constDist [⟨some 0, 0, 0⟩, ⟨some 10, 0, 1⟩] 1
    ⟨0, 1, [0], [(0, 0)]⟩ ⟨0, 2, [0, 10], [(0, 0), (0, 1)]⟩
    [] [⟨0, 1, 1⟩, ⟨1, 0, 1⟩] rfl rfl

theorem empty_window_guard_witness :
    pairwiseDist constDist [] ((0 : Rat), (0 : Rat)) = [] ∧
    write_sparse_distance_matrix 60 5 constDist [] = .ok [] ∧
    write_sparse_distance_matrix 60 5 constDist [⟨some 0, 0, 0⟩] = .ok [] :=
  empty_window_guard 60 5 constDist (0, 0) ⟨some 0, 0, 0⟩ (by decide)

theorem write_parse_error_fatal_witness :
    write_sparse_distance_matrix 60 5 constDist
      ([⟨some 0, 0, 0⟩] ++ (⟨none, 0, 0⟩ : Row) :: []) = .error () :=
  write_parse_error_fatal 60 5 constDist [⟨some 0, 0, 0⟩] ⟨none, 0, 0⟩ []
    (by decide) rfl

theorem write_never_rejects_coords_witness :
    ∃ out, write_sparse_distance_matrix 60 10 lonDist
      [⟨some 0, 200, 0⟩, ⟨some 0, 200, 0⟩] = .ok out :=
  write_never_rejects_coords 60 10 lonDist
    [⟨some 0, 200, 0⟩, ⟨some 0, 200, 0⟩] (by decide)

theorem lockstep_invariant_witness :
    ([0, 10] : List Int).length
        = ([((0 : Rat), (0 : Rat)), (0, 1)] : List Coords).length ∧
    ([0, 10] : List Int)
        = ((([⟨some 0, 0, 0⟩, ⟨some 10, 0, 1⟩] : List Row).take 2).map rowTs).drop 0 ∧
    ([((0 : Rat), (0 : Rat)), (0, 1)] : List Coords)
        = ((([⟨some 0, 0, 0⟩, ⟨some 10, 0, 1⟩] : List Row).take 2).map rowCoords).drop 0 :=
  lockstep_invariant 60 5 constDist [⟨some 0, 0, 0⟩, ⟨some 10, 0, 1⟩] 2
    ⟨0, 2, [0, 10], [(0, 0), (0, 1)]⟩ [⟨0, 1, 1⟩, ⟨1, 0, 1⟩] rfl
